import Mathlib

/-!
Verification development for the nnstreamer-edge common layer
(src/libnnstreamer-edge/nnstreamer-edge-common.c).

The C code is shallowly embedded as executable Lean functions:
  * C strings are NUL-free byte lists (`List Nat`); a NULL string argument and
    the empty string are both invalid under `STR_IS_VALID` and behave
    identically, so both are modelled as the empty list.
  * Heap allocation failure is modelled by an explicit allocation oracle, a
    list of success flags consumed by every `malloc`/`calloc`/`strdup`/
    `memdup`; the exhausted (empty) oracle means every allocation succeeds.
  * Raw buffer pointers are modelled as abstract identifiers (`Option Nat`,
    `Option.none` for NULL) bundled with the byte block they point to; a
    freshness counter stands for the allocator, so pointer aliasing can be
    reasoned about.
  * Reading memory outside a supplied serialized buffer is undefined
    behavior in C; the deserializer model reports it as a distinct
    `DeserResult.oob` outcome.
Out-parameters that the C checks for NULL are modelled as return values; the
corresponding NULL checks guard caller mistakes that a value-level embedding
cannot express and are noted where dropped.
-/

/-- Error codes (NNS_EDGE_ERROR_NONE / _INVALID_PARAMETER / _OUT_OF_MEMORY). -/
inductive ErrorCode where
  | none
  | invalidParameter
  | outOfMemory
deriving DecidableEq

/-- Consume one success flag from the allocation oracle; an empty oracle
means allocations always succeed. -/
def takeAlloc : List Bool → Bool × List Bool
  | [] => (true, [])
  | b :: rest => (b, rest)

/-- Byte-level model of C `tolower` as used by `strcasecmp`. -/
def tolowerByte (b : Nat) : Nat := if 65 ≤ b ∧ b ≤ 90 then b + 32 else b

/-- `strcasecmp (a, b) == 0`: equality after lower-casing every byte. -/
def strcaseEq (a b : List Nat) : Bool := decide (a.map tolowerByte = b.map tolowerByte)

/-- Modelled from the spec: the `STR_IS_VALID` macro lives in the header
nnstreamer-edge-common.h, which is not part of the given sources; per the
spec a string argument is valid iff it is non-null and non-empty. NULL is
merged with the empty list (both invalid, identical behavior). -/
def STR_IS_VALID (s : List Nat) : Bool := decide (s ≠ [])

/-- Modelled from the spec: the ALIVE validity-tag value (`NNS_EDGE_MAGIC`)
from the missing header; any value distinct from the DEAD tag serves. -/
def NNS_EDGE_MAGIC : Nat := 0xfeedfeed

/-- Modelled from the spec: the DEAD validity-tag value
(`NNS_EDGE_MAGIC_DEAD`) from the missing header; distinct from the ALIVE tag. -/
def NNS_EDGE_MAGIC_DEAD : Nat := 0xdeaddead

/-- Modelled from the spec: the fixed buffer-capacity bound
(`NNS_EDGE_DATA_LIMIT`) from the missing header. The spec leaves the numeric
value abstract; 4 is used here and no claim depends on the value beyond its
positivity. -/
def NNS_EDGE_DATA_LIMIT : Nat := 4

/-- One node of the metadata list (nns_edge_metadata_node_s). -/
structure MetadataNode where
  key : List Nat
  value : List Nat
deriving DecidableEq

/-- The metadata store (nns_edge_metadata_s): a pair counter and the
singly-linked node list. -/
structure Metadata where
  list_len : Nat
  list : List MetadataNode
deriving DecidableEq

/-- The all-zero metadata store. -/
def emptyMeta : Metadata := ⟨0, []⟩

/-- nns_edge_metadata_find: first node whose key matches case-insensitively,
none for an invalid key. (The NULL-meta check is not modelled: the store is
passed by value.) -/
def nns_edge_metadata_find (meta : Metadata) (key : List Nat) : Option MetadataNode :=
  if STR_IS_VALID key then meta.list.find? (fun node => strcaseEq key node.key)
  else Option.none

/-- nns_edge_metadata_init: memset the structure to zero. -/
def nns_edge_metadata_init (_meta : Metadata) : ErrorCode × Metadata :=
  (ErrorCode.none, emptyMeta)

/-- nns_edge_metadata_free: reset the counter and release every node. -/
def nns_edge_metadata_free (_meta : Metadata) : ErrorCode × Metadata :=
  (ErrorCode.none, emptyMeta)

/-- In-place value replacement on the node returned by
nns_edge_metadata_find (the first case-insensitive match). -/
def replaceFirst : List MetadataNode → List Nat → List Nat → List MetadataNode
  | [], _, _ => []
  | n :: rest, key, val =>
    if strcaseEq key n.key then { n with value := val } :: rest
    else n :: replaceFirst rest key val

/-- nns_edge_metadata_set: validate key and value, replace the value in
place when the key exists, otherwise allocate a node (calloc, strdup key,
strdup value) and prepend it, bumping list_len. -/
def nns_edge_metadata_set (al : List Bool) (meta : Metadata) (key value : List Nat) :
    ErrorCode × Metadata × List Bool :=
  if !STR_IS_VALID key then (ErrorCode.invalidParameter, meta, al)
  else if !STR_IS_VALID value then (ErrorCode.invalidParameter, meta, al)
  else
    match nns_edge_metadata_find meta key with
    | some _ =>
      let (ok, al2) := takeAlloc al
      if ok then (ErrorCode.none, { meta with list := replaceFirst meta.list key value }, al2)
      else (ErrorCode.outOfMemory, meta, al2)
    | Option.none =>
      let (okNode, al2) := takeAlloc al
      if !okNode then (ErrorCode.outOfMemory, meta, al2)
      else
        let (okKey, al3) := takeAlloc al2
        let (okVal, al4) := takeAlloc al3
        if okKey && okVal then
          (ErrorCode.none, ⟨meta.list_len + 1, ⟨key, value⟩ :: meta.list⟩, al4)
        else (ErrorCode.outOfMemory, meta, al4)

/-- nns_edge_metadata_get: strdup of the found node's value.
(The NULL out-pointer check is not modelled.) -/
def nns_edge_metadata_get (al : List Bool) (meta : Metadata) (key : List Nat) :
    ErrorCode × Option (List Nat) × List Bool :=
  match nns_edge_metadata_find meta key with
  | some node =>
    let (ok, al2) := takeAlloc al
    if ok then (ErrorCode.none, some node.value, al2)
    else (ErrorCode.outOfMemory, Option.none, al2)
  | Option.none => (ErrorCode.invalidParameter, Option.none, al)

/-- The node-transfer loop of nns_edge_metadata_copy: set every source node
into the scratch store, freeing the scratch and propagating the error on the
first failure. -/
def copyLoop (al : List Bool) (tmp : Metadata) : List MetadataNode → ErrorCode × Metadata × List Bool
  | [] => (ErrorCode.none, tmp, al)
  | n :: rest =>
    match nns_edge_metadata_set al tmp n.key n.value with
    | (ErrorCode.none, tmp2, al2) => copyLoop al2 tmp2 rest
    | (e, _, al2) => (e, emptyMeta, al2)

/-- nns_edge_metadata_copy: build a scratch store from src and replace dest
only on full success; on failure dest is untouched. -/
def nns_edge_metadata_copy (al : List Bool) (dest src : Metadata) :
    ErrorCode × Metadata × List Bool :=
  match copyLoop al emptyMeta src.list with
  | (ErrorCode.none, tmp, al2) => (ErrorCode.none, tmp, al2)
  | (e, _, al2) => (e, dest, al2)

/-- Total byte size of the serialized key/value pairs:
strlen(key) + strlen(value) + 2 per node. -/
def pairsTotal : List MetadataNode → Nat
  | [] => 0
  | n :: rest => n.key.length + n.value.length + 2 + pairsTotal rest

/-- The 4-byte count header, little-endian (the native order of the
reference platform, matching the spec's concrete byte scenario). -/
def encode32 (n : Nat) : List Nat :=
  [n % 256, n / 256 % 256, n / 65536 % 256, n / 16777216 % 256]

/-- Reading the 4-byte count header back. -/
def decode32 (buf : List Nat) : Nat :=
  buf.getD 0 0 + 256 * buf.getD 1 0 + 65536 * buf.getD 2 0 + 16777216 * buf.getD 3 0

/-- One serialized pair: key bytes, NUL, value bytes, NUL. -/
def encodePair (n : MetadataNode) : List Nat := n.key ++ 0 :: (n.value ++ [0])

/-- Serialized pair section, in the store's list order. -/
def encodePairs : List MetadataNode → List Nat
  | [] => []
  | n :: rest => encodePair n ++ encodePairs rest

/-- nns_edge_metadata_serialize: empty store yields a NULL, zero-length
result with success; otherwise one malloc of the total size, then the
4-byte count (list_len, truncated to 32 bits) followed by the pairs. -/
def nns_edge_metadata_serialize (al : List Bool) (meta : Metadata) :
    ErrorCode × Option (List Nat) × Nat × List Bool :=
  if meta.list_len = 0 then (ErrorCode.none, Option.none, 0, al)
  else
    let total := 4 + pairsTotal meta.list
    let (ok, al2) := takeAlloc al
    if ok then
      (ErrorCode.none,
        some (encode32 (meta.list_len % 4294967296) ++ encodePairs meta.list), total, al2)
    else (ErrorCode.outOfMemory, Option.none, 0, al2)

/-- C `strlen` starting inside the supplied buffer: the bytes before the
first NUL, or no result when the scan leaves the buffer (an out-of-bounds
read in C). -/
def takeUntilZero : List Nat → Option (List Nat)
  | [] => Option.none
  | b :: rest => if b = 0 then some [] else (takeUntilZero rest).map (fun l => b :: l)

/-- Outcome of nns_edge_metadata_deserialize: success, an error return with
the resulting store state, an out-of-bounds read (undefined behavior in C),
or exhausted recursion fuel (never reached by any run in this file). -/
inductive DeserResult where
  | ok (meta : Metadata) (al : List Bool)
  | err (e : ErrorCode) (meta : Metadata) (al : List Bool)
  | oob
  | outOfFuel
deriving DecidableEq

/-- The decode loop of nns_edge_metadata_deserialize, faithful to the C
continuation condition `cur < data_len || meta->list_len < total`
(a disjunction). Each iteration scans a NUL-terminated key and value with
strlen and feeds them to nns_edge_metadata_set, freeing the store and
returning the error on a set failure. -/
def deserLoop (buf : List Nat) (total : Nat) :
    Nat → List Bool → Nat → Metadata → DeserResult
  | 0, _, _, _ => DeserResult.outOfFuel
  | fuel + 1, al, cur, meta =>
    if cur < buf.length ∨ meta.list_len < total then
      match takeUntilZero (buf.drop cur) with
      | Option.none => DeserResult.oob
      | some key =>
        match takeUntilZero (buf.drop (cur + (key.length + 1))) with
        | Option.none => DeserResult.oob
        | some value =>
          match nns_edge_metadata_set al meta key value with
          | (ErrorCode.none, meta2, al2) =>
            deserLoop buf total fuel al2 (cur + (key.length + 1) + (value.length + 1)) meta2
          | (e, _, al2) => DeserResult.err e emptyMeta al2
    else DeserResult.ok meta al

/-- nns_edge_metadata_deserialize: reject a NULL/empty buffer, free the
store, read the 4-byte declared count (an out-of-bounds read already when
fewer than 4 bytes were supplied), then run the decode loop from offset 4.
The buffer argument carries exactly the `data_len` readable bytes. -/
def nns_edge_metadata_deserialize (al : List Bool) (meta : Metadata) (buf : List Nat) :
    DeserResult :=
  if buf.length = 0 then DeserResult.err ErrorCode.invalidParameter meta al
  else if buf.length < 4 then DeserResult.oob
  else deserLoop buf (decode32 buf) (buf.length + 1) al 4 emptyMeta

/-- A buffer destructor: the layer's own nns_edge_free, or a caller-supplied
callback. -/
inductive Cb where
  | nnsEdgeFree
  | custom (id : Nat)
deriving DecidableEq

/-- One buffer entry of an edge data object: the stored pointer (none for
NULL), the byte block that pointer designates, the recorded length, and the
optional destructor. -/
structure DataEntry where
  data : Option Nat
  block : List Nat
  data_len : Nat
  destroy_cb : Option Cb
deriving DecidableEq

/-- A zeroed buffer entry (the state memset leaves behind). -/
def emptyEntry : DataEntry := ⟨Option.none, [], 0, Option.none⟩

/-- The edge data object (nns_edge_data_s): validity tag, entry count, the
fixed array of NNS_EDGE_DATA_LIMIT entry slots, and the embedded store. -/
structure EdgeData where
  magic : Nat
  num : Nat
  data : List DataEntry
  metadata : Metadata
deriving DecidableEq

/-- nns_edge_data_create: one malloc, memset, tag set, metadata init.
(The NULL out-pointer check is not modelled.) -/
def nns_edge_data_create (al : List Bool) : ErrorCode × Option EdgeData × List Bool :=
  let (ok, al2) := takeAlloc al
  if ok then
    (ErrorCode.none,
      some ⟨NNS_EDGE_MAGIC, 0, List.replicate NNS_EDGE_DATA_LIMIT emptyEntry, emptyMeta⟩, al2)
  else (ErrorCode.outOfMemory, Option.none, al2)

/-- nns_edge_data_destroy: tag check, then the tag is set DEAD before the
destructors run and the object is released; the returned state models the
tag write the validity guard relies on. -/
def nns_edge_data_destroy (ed : EdgeData) : ErrorCode × EdgeData :=
  if ed.magic ≠ NNS_EDGE_MAGIC then (ErrorCode.invalidParameter, ed)
  else (ErrorCode.none, { ed with magic := NNS_EDGE_MAGIC_DEAD })

/-- nns_edge_memdup: NULL or zero size yields NULL without allocating;
otherwise one malloc and a byte copy of `size` bytes, returning a fresh
pointer identifier. (A `size` larger than the pointed-to block would be an
out-of-bounds read in C; theorems below only use it within bounds.) -/
def nns_edge_memdup (ptr : Option Nat) (block : List Nat) (size : Nat)
    (ctr : Nat) (al : List Bool) : Option (Nat × List Nat) × Nat × List Bool :=
  match ptr with
  | Option.none => (Option.none, ctr, al)
  | some _ =>
    if size = 0 then (Option.none, ctr, al)
    else
      let (ok, al2) := takeAlloc al
      if ok then (some (ctr, block.take size), ctr + 1, al2)
      else (Option.none, ctr, al2)

/-- The entry-duplication loop of nns_edge_data_copy: for each source index,
memdup the payload (the result is stored without any success check, exactly
as in the C), record the source length, and install nns_edge_free as the
destructor. -/
def copyEntries (src : List DataEntry) :
    Nat → Nat → List DataEntry → Nat → List Bool → List DataEntry × Nat × List Bool
  | 0, _, dst, ctr, al => (dst, ctr, al)
  | k + 1, i, dst, ctr, al =>
    let e := src.getD i emptyEntry
    let (dup, ctr2, al2) := nns_edge_memdup e.data e.block e.data_len ctr al
    let ne : DataEntry :=
      ⟨dup.map Prod.fst, (dup.map Prod.snd).getD [], e.data_len, some Cb.nnsEdgeFree⟩
    copyEntries src k (i + 1) (dst.set i ne) ctr2 al2

/-- nns_edge_data_copy: tag check, create the new object, duplicate every
entry, then copy the metadata; the error of the metadata copy is returned
while the already-assigned new handle stays allocated and populated. -/
def nns_edge_data_copy (ed : EdgeData) (ctr : Nat) (al : List Bool) :
    ErrorCode × Option EdgeData × Nat × List Bool :=
  if ed.magic ≠ NNS_EDGE_MAGIC then (ErrorCode.invalidParameter, Option.none, ctr, al)
  else
    match nns_edge_data_create al with
    | (ErrorCode.none, some fresh, al2) =>
      let r := copyEntries ed.data ed.num 0 fresh.data ctr al2
      match nns_edge_metadata_copy r.2.2 fresh.metadata ed.metadata with
      | (e, meta2, al4) => (e, some ⟨NNS_EDGE_MAGIC, ed.num, r.1, meta2⟩, r.2.1, al4)
    | (e, _, al2) => (e, Option.none, ctr, al2)

/-- nns_edge_data_add: tag check, capacity check against
NNS_EDGE_DATA_LIMIT, argument check, then the pointer is stored verbatim in
the next slot. -/
def nns_edge_data_add (ed : EdgeData) (ptr : Option Nat) (block : List Nat)
    (data_len : Nat) (cb : Option Cb) : ErrorCode × EdgeData :=
  if ed.magic ≠ NNS_EDGE_MAGIC then (ErrorCode.invalidParameter, ed)
  else if NNS_EDGE_DATA_LIMIT ≤ ed.num then (ErrorCode.invalidParameter, ed)
  else if ptr = Option.none ∨ data_len = 0 then (ErrorCode.invalidParameter, ed)
  else (ErrorCode.none,
    { ed with data := ed.data.set ed.num ⟨ptr, block, data_len, cb⟩, num := ed.num + 1 })

/-- nns_edge_data_get: tag check, index check, then the stored pointer, the
block it designates, and the stored length. (NULL out-pointer checks are not
modelled.) -/
def nns_edge_data_get (ed : EdgeData) (index : Nat) :
    ErrorCode × Option (Option Nat × List Nat × Nat) :=
  if ed.magic ≠ NNS_EDGE_MAGIC then (ErrorCode.invalidParameter, Option.none)
  else if ed.num ≤ index then (ErrorCode.invalidParameter, Option.none)
  else
    (ErrorCode.none,
      some ((ed.data.getD index emptyEntry).data, (ed.data.getD index emptyEntry).block,
        (ed.data.getD index emptyEntry).data_len))

/-- nns_edge_data_get_count. -/
def nns_edge_data_get_count (ed : EdgeData) : ErrorCode × Option Nat :=
  if ed.magic ≠ NNS_EDGE_MAGIC then (ErrorCode.invalidParameter, Option.none)
  else (ErrorCode.none, some ed.num)

/-- What a void pointer carried by an event may designate: NULL, raw bytes
(a capability string), or an edge data object. -/
inductive PointerTarget where
  | nullPtr
  | bytes (bs : List Nat)
  | edgeData (ed : EdgeData)
deriving DecidableEq

/-- The payload record of an event (nns_edge_event_data_s). -/
structure EventData where
  data : PointerTarget
  data_len : Nat
  destroy_cb : Option Cb
deriving DecidableEq

/-- The event object (nns_edge_event_s). -/
structure Event where
  magic : Nat
  event : Nat
  data : EventData
deriving DecidableEq

/-- Modelled from the spec: event-kind enumeration from the missing public
header; UNKNOWN is the least value and is never constructible. -/
def NNS_EDGE_EVENT_UNKNOWN : Nat := 0

/-- Modelled from the spec: the capability-announced event kind. -/
def NNS_EDGE_EVENT_CAPABILITY : Nat := 1

/-- Modelled from the spec: the new-data-received event kind. -/
def NNS_EDGE_EVENT_NEW_DATA_RECEIVED : Nat := 2

/-- nns_edge_event_create: reject kinds at or below UNKNOWN, one malloc,
memset, tag and kind set. (The NULL out-pointer check is not modelled.) -/
def nns_edge_event_create (event : Nat) (al : List Bool) :
    ErrorCode × Option Event × List Bool :=
  if event ≤ NNS_EDGE_EVENT_UNKNOWN then (ErrorCode.invalidParameter, Option.none, al)
  else
    let (ok, al2) := takeAlloc al
    if ok then
      (ErrorCode.none, some ⟨NNS_EDGE_MAGIC, event, ⟨PointerTarget.nullPtr, 0, Option.none⟩⟩, al2)
    else (ErrorCode.outOfMemory, Option.none, al2)

/-- nns_edge_event_destroy: tag check, then the tag is set DEAD before the
payload destructor runs and the object is released; the returned state
models the tag write the validity guard relies on. -/
def nns_edge_event_destroy (ee : Event) : ErrorCode × Event :=
  if ee.magic ≠ NNS_EDGE_MAGIC then (ErrorCode.invalidParameter, ee)
  else (ErrorCode.none, { ee with magic := NNS_EDGE_MAGIC_DEAD })

/-- nns_edge_event_parse_capability: tag check, kind check, then strdup of
the payload interpreted as a string; the success code is returned even when
strdup yields NULL, as in the C. (A payload that is not a string cannot be
read as one; that branch is unreachable from the claims.) -/
def nns_edge_event_parse_capability (al : List Bool) (ee : Event) :
    ErrorCode × Option (List Nat) × List Bool :=
  if ee.magic ≠ NNS_EDGE_MAGIC then (ErrorCode.invalidParameter, Option.none, al)
  else if ee.event ≠ NNS_EDGE_EVENT_CAPABILITY then
    (ErrorCode.invalidParameter, Option.none, al)
  else
    match ee.data.data with
    | PointerTarget.bytes bs =>
      let (ok, al2) := takeAlloc al
      (ErrorCode.none, if ok then some bs else Option.none, al2)
    | _ => (ErrorCode.none, Option.none, al)

/-- nns_edge_event_parse_new_data: tag check, kind check, then
nns_edge_data_copy of the payload interpreted as a data handle; a NULL or
non-object payload fails that copy's own validity guard. -/
def nns_edge_event_parse_new_data (ee : Event) (ctr : Nat) (al : List Bool) :
    ErrorCode × Option EdgeData × Nat × List Bool :=
  if ee.magic ≠ NNS_EDGE_MAGIC then (ErrorCode.invalidParameter, Option.none, ctr, al)
  else if ee.event ≠ NNS_EDGE_EVENT_NEW_DATA_RECEIVED then
    (ErrorCode.invalidParameter, Option.none, ctr, al)
  else
    match ee.data.data with
    | PointerTarget.edgeData ed => nns_edge_data_copy ed ctr al
    | _ => (ErrorCode.invalidParameter, Option.none, ctr, al)

/-- Repeated nns_edge_data_add over a list of (pointer, block, length,
destructor) arguments, stopping at the first failure. -/
def addAll : EdgeData → List (Option Nat × List Nat × Nat × Option Cb) → ErrorCode × EdgeData
  | ed, [] => (ErrorCode.none, ed)
  | ed, b :: rest =>
    match nns_edge_data_add ed b.1 b.2.1 b.2.2.1 b.2.2.2 with
    | (ErrorCode.none, ed2) => addAll ed2 rest
    | (e, ed2) => (e, ed2)

/-- Repeated nns_edge_metadata_set (with the all-succeed oracle) over a node
list; the store state the deserialize loop threads through its set calls. -/
def setFold : Metadata → List MetadataNode → Metadata
  | m, [] => m
  | m, n :: rest => setFold (nns_edge_metadata_set [] m n.key n.value).2.1 rest

/-- The store invariant: the stored pair counter equals the number of nodes
in the list. -/
def metaWF (m : Metadata) : Prop := m.list_len = m.list.length

/-- C1: the claim states that nns_edge_metadata_deserialize never reads
bytes at offsets past the supplied buffer length on any input. The code
violates it: on the 4-byte blob [1,0,0,0] (declared count 1, no pair bytes)
the loop condition `cur < data_len || list_len < total` is entered with
cur = data_len = 4, and strlen then reads at offset 4, past the buffer. -/
theorem C1_deserialize_truncated_reads_out_of_bounds :
    nns_edge_metadata_deserialize [] emptyMeta [1, 0, 0, 0] = DeserResult.oob := by
  decide

/-- C3: the claim states that a failed nns_edge_data_copy releases
everything built for the new object before returning OutOfMemory. The code
violates it: with a one-buffer source and an allocation oracle that lets the
object allocation succeed but the buffer memdup fail, the copy returns
success while the new object holds an entry with a NULL pointer and a
nonzero recorded length, and nothing is released. -/
theorem C3_data_copy_failure_partially_populated :
    nns_edge_data_copy
        ⟨NNS_EDGE_MAGIC, 1, ⟨some 0, [65, 66], 2, Option.none⟩ :: List.replicate 3 emptyEntry,
          emptyMeta⟩ 1 [true, false] =
      (ErrorCode.none,
        some ⟨NNS_EDGE_MAGIC, 1,
          ⟨Option.none, [], 2, some Cb.nnsEdgeFree⟩ :: List.replicate 3 emptyEntry, emptyMeta⟩,
        1, []) := by
  decide

/-- C6: serializing an empty store returns success with a NULL, zero-length
result; the store holding exactly the pair ("k","v") serializes to the
8 bytes [1,0,0,0,107,0,118,0]; deserializing that blob into a fresh store
and reading key "k" yields "v". -/
theorem C6_serialize_concrete_bytes :
    nns_edge_metadata_serialize [] emptyMeta = (ErrorCode.none, Option.none, 0, []) ∧
    nns_edge_metadata_serialize [] (nns_edge_metadata_set [] emptyMeta [107] [118]).2.1 =
      (ErrorCode.none, some [1, 0, 0, 0, 107, 0, 118, 0], 8, []) ∧
    nns_edge_metadata_deserialize [] emptyMeta [1, 0, 0, 0, 107, 0, 118, 0] =
      DeserResult.ok ⟨1, [⟨[107], [118]⟩]⟩ [] ∧
    nns_edge_metadata_get [] ⟨1, [⟨[107], [118]⟩]⟩ [107] = (ErrorCode.none, some [118], []) := by
  decide

/-- C8: creating an event with the unknown kind fails with InvalidParameter;
an event created with kind new-data-received fails parse-as-capability with
InvalidParameter; parse-as-new-data fails with InvalidParameter on every
valid event whose kind is not new-data-received. -/
theorem C8_event_kind_checks :
    nns_edge_event_create NNS_EDGE_EVENT_UNKNOWN [] =
      (ErrorCode.invalidParameter, Option.none, []) ∧
    (∀ ev : Event,
      nns_edge_event_create NNS_EDGE_EVENT_NEW_DATA_RECEIVED [] = (ErrorCode.none, some ev, []) →
      nns_edge_event_parse_capability [] ev = (ErrorCode.invalidParameter, Option.none, [])) ∧
    (∀ (ev : Event) (ctr : Nat) (al : List Bool), ev.magic = NNS_EDGE_MAGIC →
      ev.event ≠ NNS_EDGE_EVENT_NEW_DATA_RECEIVED →
      nns_edge_event_parse_new_data ev ctr al = (ErrorCode.invalidParameter, Option.none, ctr, al)) := by
  refine ⟨by decide, ?_, ?_⟩
  · intro ev h
    have hev : ev = ⟨NNS_EDGE_MAGIC, NNS_EDGE_EVENT_NEW_DATA_RECEIVED,
        ⟨PointerTarget.nullPtr, 0, Option.none⟩⟩ := by
      simp [nns_edge_event_create, NNS_EDGE_EVENT_NEW_DATA_RECEIVED, NNS_EDGE_EVENT_UNKNOWN,
        takeAlloc] at h
      exact h.symm
    subst hev
    decide
  · intro ev ctr al hmagic hkind
    simp [nns_edge_event_parse_new_data, hmagic, hkind]

/-- C8 witness: a concrete valid capability event is rejected by
parse-as-new-data. -/
theorem C8_event_kind_checks_witness :
    (⟨NNS_EDGE_MAGIC, NNS_EDGE_EVENT_CAPABILITY,
        ⟨PointerTarget.nullPtr, 0, Option.none⟩⟩ : Event).magic = NNS_EDGE_MAGIC ∧
    nns_edge_event_parse_new_data
        ⟨NNS_EDGE_MAGIC, NNS_EDGE_EVENT_CAPABILITY, ⟨PointerTarget.nullPtr, 0, Option.none⟩⟩
        0 [] = (ErrorCode.invalidParameter, Option.none, 0, []) :=
  ⟨rfl, C8_event_kind_checks.2.2 _ 0 [] rfl (by decide)⟩

/-- C9: after a first successful destroy the object's validity tag is DEAD,
and a second destroy on the same handle fails with InvalidParameter without
releasing anything again — for event objects and for edge data objects. -/
theorem C9_double_destroy_fails :
    (∀ ee : Event, ee.magic = NNS_EDGE_MAGIC →
      nns_edge_event_destroy ee = (ErrorCode.none, { ee with magic := NNS_EDGE_MAGIC_DEAD }) ∧
      nns_edge_event_destroy { ee with magic := NNS_EDGE_MAGIC_DEAD } =
        (ErrorCode.invalidParameter, { ee with magic := NNS_EDGE_MAGIC_DEAD })) ∧
    (∀ ed : EdgeData, ed.magic = NNS_EDGE_MAGIC →
      nns_edge_data_destroy ed = (ErrorCode.none, { ed with magic := NNS_EDGE_MAGIC_DEAD }) ∧
      nns_edge_data_destroy { ed with magic := NNS_EDGE_MAGIC_DEAD } =
        (ErrorCode.invalidParameter, { ed with magic := NNS_EDGE_MAGIC_DEAD })) := by
  have hne : NNS_EDGE_MAGIC_DEAD ≠ NNS_EDGE_MAGIC := by decide
  constructor
  · intro ee hmagic
    constructor
    · simp [nns_edge_event_destroy, hmagic]
    · simp [nns_edge_event_destroy, hne]
  · intro ed hmagic
    constructor
    · simp [nns_edge_data_destroy, hmagic]
    · simp [nns_edge_data_destroy, hne]

/-- C9 witness: a freshly created event and a freshly created data object
are each destroyed once, then rejected on the second destroy. -/
theorem C9_double_destroy_fails_witness :
    ((⟨NNS_EDGE_MAGIC, NNS_EDGE_EVENT_CAPABILITY,
        ⟨PointerTarget.nullPtr, 0, Option.none⟩⟩ : Event).magic = NNS_EDGE_MAGIC ∧
      nns_edge_event_destroy
          { (⟨NNS_EDGE_MAGIC, NNS_EDGE_EVENT_CAPABILITY,
              ⟨PointerTarget.nullPtr, 0, Option.none⟩⟩ : Event) with
            magic := NNS_EDGE_MAGIC_DEAD } =
        (ErrorCode.invalidParameter,
          { (⟨NNS_EDGE_MAGIC, NNS_EDGE_EVENT_CAPABILITY,
              ⟨PointerTarget.nullPtr, 0, Option.none⟩⟩ : Event) with
            magic := NNS_EDGE_MAGIC_DEAD })) ∧
    ((⟨NNS_EDGE_MAGIC, 0, [], emptyMeta⟩ : EdgeData).magic = NNS_EDGE_MAGIC ∧
      nns_edge_data_destroy
          { (⟨NNS_EDGE_MAGIC, 0, [], emptyMeta⟩ : EdgeData) with magic := NNS_EDGE_MAGIC_DEAD } =
        (ErrorCode.invalidParameter,
          { (⟨NNS_EDGE_MAGIC, 0, [], emptyMeta⟩ : EdgeData) with
            magic := NNS_EDGE_MAGIC_DEAD })) :=
  ⟨⟨rfl, (C9_double_destroy_fails.1 _ rfl).2⟩, ⟨rfl, (C9_double_destroy_fails.2 _ rfl).2⟩⟩

theorem strcaseEq_refl (a : List Nat) : strcaseEq a a = true := by
  simp [strcaseEq]

theorem strcaseEq_symm {a b : List Nat} (h : strcaseEq a b = true) : strcaseEq b a = true := by
  simp [strcaseEq] at h ⊢
  exact h.symm

theorem strcaseEq_ne_nil {a b : List Nat} (h : strcaseEq a b = true) (ha : a ≠ []) : b ≠ [] := by
  simp [strcaseEq] at h
  intro hb
  apply ha
  rw [hb] at h
  simpa using h

/-- Value replacement commutes with the case-insensitive search: the first
match is the same node with its value swapped. -/
theorem find_replaceFirst (l : List MetadataNode) (k v : List Nat) :
    (replaceFirst l k v).find? (fun n => strcaseEq k n.key) =
      (l.find? (fun n => strcaseEq k n.key)).map (fun n => { n with value := v }) := by
  induction l with
  | nil => simp [replaceFirst]
  | cons n rest ih =>
    by_cases hc : strcaseEq k n.key = true
    · simp [replaceFirst, hc, List.find?_cons_of_pos]
    · have hc2 : strcaseEq k n.key = false := by
        cases hb : strcaseEq k n.key
        · rfl
        · exact absurd hb hc
      simp [replaceFirst, hc2, List.find?_cons_of_neg, ih]

/-- C4: get after a successful set on any store returns the value just set,
and a second set with a case-insensitive variant of the same key replaces
the stored value in place, leaving a one-node store with pair count 1. -/
theorem C4_set_get_overwrite :
    (∀ (m : Metadata) (k v : List Nat), k ≠ [] → v ≠ [] →
      nns_edge_metadata_get [] (nns_edge_metadata_set [] m k v).2.1 k =
        (ErrorCode.none, some v, [])) ∧
    (∀ (k k2 v1 v2 : List Nat), k ≠ [] → v1 ≠ [] → v2 ≠ [] → strcaseEq k k2 = true →
      (nns_edge_metadata_set [] (nns_edge_metadata_set [] emptyMeta k v1).2.1 k2 v2).2.1 =
        ⟨1, [⟨k, v2⟩]⟩) := by
  constructor
  · intro m k v hk hv
    have hkv : STR_IS_VALID k = true := by simp [STR_IS_VALID, hk]
    have hvv : STR_IS_VALID v = true := by simp [STR_IS_VALID, hv]
    cases hf : nns_edge_metadata_find m k with
    | none =>
      simp only [nns_edge_metadata_set, hkv, hvv, hf, takeAlloc, Bool.not_true,
        Bool.false_eq_true, if_false, Bool.and_self, if_true]
      simp [nns_edge_metadata_get, nns_edge_metadata_find, hkv,
        List.find?_cons_of_pos, strcaseEq_refl, takeAlloc]
    | some node =>
      have hfind : m.list.find? (fun n => strcaseEq k n.key) = some node := by
        simpa [nns_edge_metadata_find, hkv] using hf
      simp only [nns_edge_metadata_set, hkv, hvv, hf, takeAlloc, Bool.not_true,
        Bool.false_eq_true, if_false, if_true]
      simp [nns_edge_metadata_get, nns_edge_metadata_find, hkv, find_replaceFirst,
        hfind, takeAlloc]
  · intro k k2 v1 v2 hk hv1 hv2 hcase
    have hk2 : k2 ≠ [] := strcaseEq_ne_nil hcase hk
    have hkv : STR_IS_VALID k = true := by simp [STR_IS_VALID, hk]
    have hk2v : STR_IS_VALID k2 = true := by simp [STR_IS_VALID, hk2]
    have hv1v : STR_IS_VALID v1 = true := by simp [STR_IS_VALID, hv1]
    have hv2v : STR_IS_VALID v2 = true := by simp [STR_IS_VALID, hv2]
    have h1 : (nns_edge_metadata_set [] emptyMeta k v1).2.1 = ⟨1, [⟨k, v1⟩]⟩ := by
      simp [nns_edge_metadata_set, hkv, hv1v, nns_edge_metadata_find, emptyMeta, takeAlloc]
    rw [h1]
    have hsym : strcaseEq k2 k = true := strcaseEq_symm hcase
    simp [nns_edge_metadata_set, hk2v, hv2v, nns_edge_metadata_find,
      List.find?_cons_of_pos, hsym, takeAlloc, replaceFirst]

/-- C4 witness: set ("k","v"), read it back; then overwrite via the
case-variant key "K" and observe the one-node store. -/
theorem C4_set_get_overwrite_witness :
    (([107] : List Nat) ≠ [] ∧ ([118] : List Nat) ≠ [] ∧
      nns_edge_metadata_get [] (nns_edge_metadata_set [] emptyMeta [107] [118]).2.1 [107] =
        (ErrorCode.none, some [118], [])) ∧
    (strcaseEq [107] [75] = true ∧
      (nns_edge_metadata_set [] (nns_edge_metadata_set [] emptyMeta [107] [118]).2.1
          [75] [119]).2.1 = ⟨1, [⟨[107], [119]⟩]⟩) :=
  ⟨⟨by decide, by decide,
      C4_set_get_overwrite.1 emptyMeta [107] [118] (by decide) (by decide)⟩,
    ⟨by decide,
      C4_set_get_overwrite.2 [107] [75] [118] [119] (by decide) (by decide) (by decide)
        (by decide)⟩⟩

/-- Appending a list of valid buffers that fits under the capacity bound
succeeds, counts up by one per buffer, and keeps the handle valid. -/
theorem addAll_ok (bs : List (Option Nat × List Nat × Nat × Option Cb)) :
    ∀ ed : EdgeData, ed.magic = NNS_EDGE_MAGIC →
    (∀ b ∈ bs, b.1 ≠ Option.none ∧ b.2.2.1 ≠ 0) →
    ed.num + bs.length ≤ NNS_EDGE_DATA_LIMIT →
    (addAll ed bs).1 = ErrorCode.none ∧ (addAll ed bs).2.num = ed.num + bs.length ∧
      (addAll ed bs).2.magic = NNS_EDGE_MAGIC := by
  induction bs with
  | nil => intro ed hm _ _; simp [addAll, hm]
  | cons b rest ih =>
    intro ed hm hval hcap
    have hb := hval b (List.mem_cons_self b rest)
    have hlt : ¬ NNS_EDGE_DATA_LIMIT ≤ ed.num := by
      simp only [List.length_cons] at hcap
      omega
    have hadd : nns_edge_data_add ed b.1 b.2.1 b.2.2.1 b.2.2.2 =
        (ErrorCode.none, ⟨ed.magic, ed.num + 1,
          ed.data.set ed.num ⟨b.1, b.2.1, b.2.2.1, b.2.2.2⟩, ed.metadata⟩) := by
      simp [nns_edge_data_add, hm, hlt, hb.1, hb.2]
    have hrest : addAll ed (b :: rest) =
        addAll ⟨ed.magic, ed.num + 1,
          ed.data.set ed.num ⟨b.1, b.2.1, b.2.2.1, b.2.2.2⟩, ed.metadata⟩ rest := by
      simp [addAll, hadd]
    rw [hrest]
    have hind := ih ⟨ed.magic, ed.num + 1,
        ed.data.set ed.num ⟨b.1, b.2.1, b.2.2.1, b.2.2.2⟩, ed.metadata⟩ hm
      (fun x hx => hval x (List.mem_cons_of_mem b hx))
      (by simp only [List.length_cons] at hcap; simpa using by omega)
    refine ⟨hind.1, ?_, hind.2.2⟩
    rw [hind.2.1]
    simp only [List.length_cons]
    omega

/-- C5: on a fresh valid object, appending NNS_EDGE_DATA_LIMIT valid buffers
succeeds and brings the count to the limit; the next append fails with
InvalidParameter and leaves the count unchanged; and add fails with
InvalidParameter whenever the pointer is absent or the length is zero. -/
theorem C5_capacity_boundary :
    (∀ (ed : EdgeData) (bs : List (Option Nat × List Nat × Nat × Option Cb)),
      ed.magic = NNS_EDGE_MAGIC → ed.num = 0 → bs.length = NNS_EDGE_DATA_LIMIT →
      (∀ b ∈ bs, b.1 ≠ Option.none ∧ b.2.2.1 ≠ 0) →
      (addAll ed bs).1 = ErrorCode.none ∧ (addAll ed bs).2.num = NNS_EDGE_DATA_LIMIT ∧
      (∀ (p : Option Nat) (blk : List Nat) (len : Nat) (cb : Option Cb),
        nns_edge_data_add (addAll ed bs).2 p blk len cb =
          (ErrorCode.invalidParameter, (addAll ed bs).2))) ∧
    (∀ (ed : EdgeData) (blk : List Nat) (len : Nat) (cb : Option Cb),
      ed.magic = NNS_EDGE_MAGIC →
      nns_edge_data_add ed Option.none blk len cb = (ErrorCode.invalidParameter, ed)) ∧
    (∀ (ed : EdgeData) (p : Option Nat) (blk : List Nat) (cb : Option Cb),
      ed.magic = NNS_EDGE_MAGIC →
      nns_edge_data_add ed p blk 0 cb = (ErrorCode.invalidParameter, ed)) := by
  refine ⟨?_, ?_, ?_⟩
  · intro ed bs hm h0 hlen hval
    have h := addAll_ok bs ed hm hval (by omega)
    have hnum : (addAll ed bs).2.num = NNS_EDGE_DATA_LIMIT := by
      rw [h.2.1]; omega
    refine ⟨h.1, hnum, ?_⟩
    intro p blk len cb
    have hfull : NNS_EDGE_DATA_LIMIT ≤ (addAll ed bs).2.num := by rw [hnum]
    simp [nns_edge_data_add, h.2.2, hfull]
  · intro ed blk len cb hm
    rcases le_or_lt NNS_EDGE_DATA_LIMIT ed.num with h | h
    · simp [nns_edge_data_add, hm, h]
    · simp [nns_edge_data_add, hm, not_le.mpr h]
  · intro ed p blk cb hm
    rcases le_or_lt NNS_EDGE_DATA_LIMIT ed.num with h | h
    · simp [nns_edge_data_add, hm, h]
    · simp [nns_edge_data_add, hm, not_le.mpr h]

/-- C5 witness: four concrete valid buffers fill a fresh object; a fifth
valid append is rejected, leaving the object unchanged at the limit. -/
theorem C5_capacity_boundary_witness :
    (⟨NNS_EDGE_MAGIC, 0, List.replicate NNS_EDGE_DATA_LIMIT emptyEntry,
        emptyMeta⟩ : EdgeData).magic = NNS_EDGE_MAGIC ∧
    nns_edge_data_add
        (addAll ⟨NNS_EDGE_MAGIC, 0, List.replicate NNS_EDGE_DATA_LIMIT emptyEntry, emptyMeta⟩
          [(some 1, [1], 1, Option.none), (some 2, [2], 1, Option.none),
            (some 3, [3], 1, Option.none), (some 4, [4], 1, Option.none)]).2
        (some 9) [7] 1 Option.none =
      (ErrorCode.invalidParameter,
        (addAll ⟨NNS_EDGE_MAGIC, 0, List.replicate NNS_EDGE_DATA_LIMIT emptyEntry, emptyMeta⟩
          [(some 1, [1], 1, Option.none), (some 2, [2], 1, Option.none),
            (some 3, [3], 1, Option.none), (some 4, [4], 1, Option.none)]).2) :=
  ⟨rfl,
    (C5_capacity_boundary.1
        ⟨NNS_EDGE_MAGIC, 0, List.replicate NNS_EDGE_DATA_LIMIT emptyEntry, emptyMeta⟩
        [(some 1, [1], 1, Option.none), (some 2, [2], 1, Option.none),
          (some 3, [3], 1, Option.none), (some 4, [4], 1, Option.none)]
        rfl rfl (by decide) (by decide)).2.2 (some 9) [7] 1 Option.none⟩

theorem getD_set_self {α : Type} (l : List α) (n : Nat) (a d : α) (h : n < l.length) :
    (l.set n a).getD n d = a := by
  induction l generalizing n with
  | nil => simp at h
  | cons x xs ih =>
    cases n with
    | zero => simp [List.set, List.getD]
    | succ m =>
      simp only [List.length_cons] at h
      simpa [List.set, List.getD] using ih m (by omega)

theorem getD_set_ne {α : Type} (l : List α) (n m : Nat) (a d : α) (h : m ≠ n) :
    (l.set n a).getD m d = l.getD m d := by
  induction l generalizing n m with
  | nil => simp [List.set]
  | cons x xs ih =>
    cases n with
    | zero =>
      cases m with
      | zero => exact absurd rfl h
      | succ m2 => simp [List.set, List.getD]
    | succ n2 =>
      cases m with
      | zero => simp [List.set, List.getD]
      | succ m2 => simpa [List.set, List.getD] using ih n2 m2 (by omega)

/-- With the all-succeed oracle, set never fails on a valid key and value. -/
theorem set_nofail (m : Metadata) (k v : List Nat) (hk : k ≠ []) (hv : v ≠ []) :
    ∃ m2, nns_edge_metadata_set [] m k v = (ErrorCode.none, m2, []) := by
  have hkv : STR_IS_VALID k = true := by simp [STR_IS_VALID, hk]
  have hvv : STR_IS_VALID v = true := by simp [STR_IS_VALID, hv]
  cases hf : nns_edge_metadata_find m k with
  | none =>
    exact ⟨⟨m.list_len + 1, ⟨k, v⟩ :: m.list⟩,
      by simp [nns_edge_metadata_set, hkv, hvv, hf, takeAlloc]⟩
  | some node =>
    exact ⟨⟨m.list_len, replaceFirst m.list k v⟩,
      by simp [nns_edge_metadata_set, hkv, hvv, hf, takeAlloc]⟩

/-- With the all-succeed oracle, the metadata copy loop transfers every
valid node without failing. -/
theorem copyLoop_nofail :
    ∀ (nodes : List MetadataNode) (tmp : Metadata),
    (∀ n ∈ nodes, n.key ≠ [] ∧ n.value ≠ []) →
    ∃ m2, copyLoop [] tmp nodes = (ErrorCode.none, m2, []) := by
  intro nodes
  induction nodes with
  | nil => intro tmp _; exact ⟨tmp, rfl⟩
  | cons n rest ih =>
    intro tmp h
    have hn := h n (List.mem_cons_self n rest)
    obtain ⟨m2, hset⟩ := set_nofail tmp n.key n.value hn.1 hn.2
    obtain ⟨m3, hrec⟩ := ih m2 (fun x hx => h x (List.mem_cons_of_mem n hx))
    exact ⟨m3, by simp [copyLoop, hset, hrec]⟩

/-- With the all-succeed oracle, metadata copy of a store of valid nodes
succeeds. -/
theorem metadata_copy_nofail (dest src : Metadata)
    (h : ∀ n ∈ src.list, n.key ≠ [] ∧ n.value ≠ []) :
    ∃ m2, nns_edge_metadata_copy [] dest src = (ErrorCode.none, m2, []) := by
  obtain ⟨m2, hcl⟩ := copyLoop_nofail src.list emptyMeta h
  exact ⟨m2, by simp [nns_edge_metadata_copy, hcl]⟩

/-- The entry-duplication loop with the all-succeed oracle: every processed
slot receives a fresh pointer, a private copy of the designated bytes, the
source length, and nns_edge_free; slots below the start are untouched. -/
theorem copyEntries_ok :
    ∀ (k i : Nat) (src dst : List DataEntry) (ctr : Nat),
    (∀ t, t < k → ∃ p, (src.getD (i + t) emptyEntry).data = some p) →
    (∀ t, t < k → (src.getD (i + t) emptyEntry).data_len ≠ 0) →
    i + k ≤ dst.length →
    ∃ dst2, copyEntries src k i dst ctr [] = (dst2, ctr + k, []) ∧
      dst2.length = dst.length ∧
      (∀ t, t < k → dst2.getD (i + t) emptyEntry =
        ⟨some (ctr + t),
          (src.getD (i + t) emptyEntry).block.take (src.getD (i + t) emptyEntry).data_len,
          (src.getD (i + t) emptyEntry).data_len, some Cb.nnsEdgeFree⟩) ∧
      (∀ j, j < i → dst2.getD j emptyEntry = dst.getD j emptyEntry) := by
  intro k
  induction k with
  | zero =>
    intro i src dst ctr _ _ _
    exact ⟨dst, by simp [copyEntries], rfl, fun t ht => absurd ht (by omega),
      fun j _ => rfl⟩
  | succ k2 ih =>
    intro i src dst ctr hptr hlen hcap
    obtain ⟨p, hp⟩ := hptr 0 (by omega)
    have hl0 : (src.getD (i + 0) emptyEntry).data_len ≠ 0 := hlen 0 (by omega)
    rw [Nat.add_zero] at hp hl0
    have hmd : nns_edge_memdup (src.getD i emptyEntry).data (src.getD i emptyEntry).block
        (src.getD i emptyEntry).data_len ctr [] =
        (some (ctr, (src.getD i emptyEntry).block.take (src.getD i emptyEntry).data_len),
          ctr + 1, []) := by
      unfold nns_edge_memdup
      rw [hp]
      generalize src.getD i emptyEntry = e at hl0 ⊢
      simp [hl0, takeAlloc]
    have hstep : copyEntries src (k2 + 1) i dst ctr [] =
        copyEntries src k2 (i + 1)
          (dst.set i ⟨some ctr,
            (src.getD i emptyEntry).block.take (src.getD i emptyEntry).data_len,
            (src.getD i emptyEntry).data_len, some Cb.nnsEdgeFree⟩) (ctr + 1) [] := by
      simp only [copyEntries]
      rw [hmd]
      rfl
    obtain ⟨dst2, hrec, hlen2, hget, hbelow⟩ :=
      ih (i + 1) src
        (dst.set i ⟨some ctr,
          (src.getD i emptyEntry).block.take (src.getD i emptyEntry).data_len,
          (src.getD i emptyEntry).data_len, some Cb.nnsEdgeFree⟩) (ctr + 1)
        (fun t ht => by
          have := hptr (t + 1) (by omega)
          rwa [show i + (t + 1) = i + 1 + t by omega] at this)
        (fun t ht => by
          have := hlen (t + 1) (by omega)
          rwa [show i + (t + 1) = i + 1 + t by omega] at this)
        (by rw [List.length_set]; omega)
    refine ⟨dst2, ?_, by simpa using hlen2, ?_, ?_⟩
    · rw [hstep, hrec]
      congr 2
      omega
    · intro t ht
      cases t with
      | zero =>
        rw [Nat.add_zero]
        have hi : i < i + 1 := by omega
        rw [hbelow i hi, getD_set_self dst i _ _ (by omega)]
        simp
      | succ t2 =>
        have hg := hget t2 (by omega)
        rw [show i + (t2 + 1) = i + 1 + t2 by omega,
          show ctr + (t2 + 1) = ctr + 1 + t2 by omega]
        exact hg
    · intro j hj
      rw [hbelow j (by omega), getD_set_ne dst i j _ _ (by omega)]

/-- C7: a successful nns_edge_data_copy of a valid, well-formed source
yields a new object whose every entry holds a private byte-for-byte
duplicate of the corresponding source entry — same bytes, same length,
destructor nns_edge_free regardless of the source's destructor — under a
pointer that aliases no source payload pointer. -/
theorem C7_deep_copy_private_duplicates :
    ∀ (ed : EdgeData) (ctr : Nat),
    ed.magic = NNS_EDGE_MAGIC →
    ed.num ≤ NNS_EDGE_DATA_LIMIT →
    (∀ i, i < ed.num → ∃ p, (ed.data.getD i emptyEntry).data = some p ∧ p < ctr) →
    (∀ i, i < ed.num → (ed.data.getD i emptyEntry).data_len ≠ 0 ∧
      (ed.data.getD i emptyEntry).data_len = (ed.data.getD i emptyEntry).block.length) →
    (∀ n ∈ ed.metadata.list, n.key ≠ [] ∧ n.value ≠ []) →
    ∃ copied,
      nns_edge_data_copy ed ctr [] = (ErrorCode.none, some copied, ctr + ed.num, []) ∧
      copied.magic = NNS_EDGE_MAGIC ∧ copied.num = ed.num ∧
      (∀ i, i < ed.num →
        (copied.data.getD i emptyEntry).block = (ed.data.getD i emptyEntry).block ∧
        (copied.data.getD i emptyEntry).data_len = (ed.data.getD i emptyEntry).data_len ∧
        (copied.data.getD i emptyEntry).destroy_cb = some Cb.nnsEdgeFree ∧
        (∀ j, j < ed.num →
          (copied.data.getD i emptyEntry).data ≠ (ed.data.getD j emptyEntry).data)) := by
  intro ed ctr hm hnum hptr hlen hmeta
  obtain ⟨dst2, hcp, hdlen, hget, _⟩ :=
    copyEntries_ok ed.num 0 ed.data (List.replicate NNS_EDGE_DATA_LIMIT emptyEntry) ctr
      (fun t ht => by
        rw [Nat.zero_add]
        exact (hptr t ht).imp (fun p hp => hp.1))
      (fun t ht => by
        rw [Nat.zero_add]
        exact (hlen t ht).1)
      (by simpa using hnum)
  obtain ⟨m2, hmc⟩ := metadata_copy_nofail emptyMeta ed.metadata hmeta
  have hres : nns_edge_data_copy ed ctr [] =
      (ErrorCode.none, some ⟨NNS_EDGE_MAGIC, ed.num, dst2, m2⟩, ctr + ed.num, []) := by
    simp [nns_edge_data_copy, hm, nns_edge_data_create, takeAlloc, hcp, hmc]
  refine ⟨⟨NNS_EDGE_MAGIC, ed.num, dst2, m2⟩, hres, rfl, rfl, ?_⟩
  intro i hi
  have hgi := hget i hi
  rw [Nat.zero_add] at hgi
  have hli := hlen i hi
  refine ⟨?_, ?_, ?_, ?_⟩
  · show (dst2.getD i emptyEntry).block = _
    rw [hgi]
    show ((ed.data.getD i emptyEntry).block.take (ed.data.getD i emptyEntry).data_len) = _
    rw [hli.2]
    exact List.take_length _
  · show (dst2.getD i emptyEntry).data_len = _
    rw [hgi]
  · show (dst2.getD i emptyEntry).destroy_cb = _
    rw [hgi]
  · intro j hj
    obtain ⟨q, hq, hqlt⟩ := hptr j hj
    show (dst2.getD i emptyEntry).data ≠ _
    rw [hgi, hq]
    simp only [ne_eq, Option.some.injEq]
    omega

/-- C7 witness: copying a one-buffer source (pointer 5, bytes [1,2], a
caller-owned entry with no destructor) at counter 6 yields a fresh pointer,
the same bytes, and the layer's destructor. -/
theorem C7_deep_copy_private_duplicates_witness :
    ∃ copied,
      nns_edge_data_copy
          ⟨NNS_EDGE_MAGIC, 1,
            [⟨some 5, [1, 2], 2, Option.none⟩, emptyEntry, emptyEntry, emptyEntry],
            emptyMeta⟩ 6 [] = (ErrorCode.none, some copied, 6 + 1, []) ∧
      copied.magic = NNS_EDGE_MAGIC ∧ copied.num = 1 ∧
      (∀ i, i < 1 →
        (copied.data.getD i emptyEntry).block =
          (([⟨some 5, [1, 2], 2, Option.none⟩, emptyEntry, emptyEntry,
            emptyEntry] : List DataEntry).getD i emptyEntry).block ∧
        (copied.data.getD i emptyEntry).data_len =
          (([⟨some 5, [1, 2], 2, Option.none⟩, emptyEntry, emptyEntry,
            emptyEntry] : List DataEntry).getD i emptyEntry).data_len ∧
        (copied.data.getD i emptyEntry).destroy_cb = some Cb.nnsEdgeFree ∧
        (∀ j, j < 1 →
          (copied.data.getD i emptyEntry).data ≠
            (([⟨some 5, [1, 2], 2, Option.none⟩, emptyEntry, emptyEntry,
              emptyEntry] : List DataEntry).getD j emptyEntry).data)) :=
  C7_deep_copy_private_duplicates
    ⟨NNS_EDGE_MAGIC, 1, [⟨some 5, [1, 2], 2, Option.none⟩, emptyEntry, emptyEntry, emptyEntry],
      emptyMeta⟩ 6 rfl (by decide)
    (fun i hi => by
      have hi1 : i < 1 := hi
      have hi0 : i = 0 := by omega
      subst hi0
      exact ⟨5, rfl, by decide⟩)
    (fun i hi => by
      have hi1 : i < 1 := hi
      have hi0 : i = 0 := by omega
      subst hi0
      exact ⟨by decide, rfl⟩)
    (by simp [emptyMeta])

theorem length_replaceFirst (l : List MetadataNode) (k v : List Nat) :
    (replaceFirst l k v).length = l.length := by
  induction l with
  | nil => rfl
  | cons n rest ih =>
    by_cases hc : strcaseEq k n.key = true
    · simp [replaceFirst, hc]
    · have hc2 : strcaseEq k n.key = false := by
        cases hb : strcaseEq k n.key
        · rfl
        · exact absurd hb hc
      simp [replaceFirst, hc2, ih]

/-- With the all-succeed oracle, set reduces to a plain replacement or
prepend on valid arguments. -/
theorem set_empty_cases (m : Metadata) (k v : List Nat) (hk : k ≠ []) (hv : v ≠ []) :
    nns_edge_metadata_set [] m k v =
      match nns_edge_metadata_find m k with
      | some _ => (ErrorCode.none, ⟨m.list_len, replaceFirst m.list k v⟩, [])
      | Option.none => (ErrorCode.none, ⟨m.list_len + 1, ⟨k, v⟩ :: m.list⟩, []) := by
  have hkv : STR_IS_VALID k = true := by simp [STR_IS_VALID, hk]
  have hvv : STR_IS_VALID v = true := by simp [STR_IS_VALID, hv]
  cases hf : nns_edge_metadata_find m k with
  | some node => simp [nns_edge_metadata_set, hkv, hvv, hf, takeAlloc]
  | none => simp [nns_edge_metadata_set, hkv, hvv, hf, takeAlloc]

/-- Every outcome of set keeps the pair counter equal to the node count. -/
theorem set_preserves_wf (al : List Bool) (m : Metadata) (k v : List Nat) (h : metaWF m) :
    metaWF (nns_edge_metadata_set al m k v).2.1 := by
  unfold nns_edge_metadata_set
  cases hk : STR_IS_VALID k with
  | false => simpa [hk] using h
  | true =>
    cases hv : STR_IS_VALID v with
    | false => simpa [hk, hv] using h
    | true =>
      cases hf : nns_edge_metadata_find m k with
      | some node =>
        rcases hta : takeAlloc al with ⟨ok, al2⟩
        cases ok
        · simpa [hk, hv, hf, hta] using h
        · simp only [hk, hv, hf, hta, Bool.not_true, Bool.false_eq_true, if_false, if_true]
          show metaWF { m with list := replaceFirst m.list k v }
          unfold metaWF at h ⊢
          simpa [length_replaceFirst] using h
      | none =>
        rcases hta : takeAlloc al with ⟨okNode, al2⟩
        cases okNode
        · simpa [hk, hv, hf, hta] using h
        · rcases htb : takeAlloc al2 with ⟨okKey, al3⟩
          rcases htc : takeAlloc al3 with ⟨okVal, al4⟩
          cases okKey <;> cases okVal
          · simpa [hk, hv, hf, hta, htb, htc] using h
          · simpa [hk, hv, hf, hta, htb, htc] using h
          · simpa [hk, hv, hf, hta, htb, htc] using h
          · simp only [hk, hv, hf, hta, htb, htc, Bool.not_true, Bool.false_eq_true,
              if_false, if_true, Bool.and_self]
            show metaWF ⟨m.list_len + 1, ⟨k, v⟩ :: m.list⟩
            unfold metaWF at h ⊢
            simpa using h

theorem metaWF_empty : metaWF emptyMeta := rfl

/-- The metadata copy loop keeps the scratch store well-formed. -/
theorem copyLoop_preserves_wf :
    ∀ (nodes : List MetadataNode) (al : List Bool) (tmp : Metadata), metaWF tmp →
    metaWF (copyLoop al tmp nodes).2.1 := by
  intro nodes
  induction nodes with
  | nil => intro al tmp h; exact h
  | cons n rest ih =>
    intro al tmp h
    rcases hset : nns_edge_metadata_set al tmp n.key n.value with ⟨e, tmp2, al2⟩
    have htmp2 : metaWF tmp2 := by
      have := set_preserves_wf al tmp n.key n.value h
      rwa [hset] at this
    cases e with
    | none => simpa [copyLoop, hset] using ih al2 tmp2 htmp2
    | invalidParameter => simp [copyLoop, hset, metaWF_empty]
    | outOfMemory => simp [copyLoop, hset, metaWF_empty]

/-- Metadata copy keeps a well-formed destination well-formed, whether it
replaces the content on success or leaves it untouched on failure. -/
theorem metadata_copy_preserves_wf (al : List Bool) (dest src : Metadata) (h : metaWF dest) :
    metaWF (nns_edge_metadata_copy al dest src).2.1 := by
  rcases hcl : copyLoop al emptyMeta src.list with ⟨e, tmp, al2⟩
  have htmp : metaWF tmp := by
    have := copyLoop_preserves_wf src.list al emptyMeta metaWF_empty
    rwa [hcl] at this
  cases e with
  | none => simpa [nns_edge_metadata_copy, hcl] using htmp
  | invalidParameter => simpa [nns_edge_metadata_copy, hcl] using h
  | outOfMemory => simpa [nns_edge_metadata_copy, hcl] using h

/-- The decode loop only ever surfaces well-formed stores, both on success
and beside an error code. -/
theorem deserLoop_preserves_wf :
    ∀ (fuel : Nat) (buf : List Nat) (total : Nat) (al : List Bool) (cur : Nat)
      (meta m2 : Metadata) (al2 : List Bool), metaWF meta →
    (deserLoop buf total fuel al cur meta = DeserResult.ok m2 al2 → metaWF m2) ∧
    (∀ e, deserLoop buf total fuel al cur meta = DeserResult.err e m2 al2 → metaWF m2) := by
  intro fuel
  induction fuel with
  | zero =>
    intro buf total al cur meta m2 al2 _
    constructor
    · intro h; simp [deserLoop] at h
    · intro e h; simp [deserLoop] at h
  | succ f ih =>
    intro buf total al cur meta m2 al2 h
    by_cases hcond : cur < buf.length ∨ meta.list_len < total
    · rcases hkey : takeUntilZero (buf.drop cur) with _ | key
      · constructor
        · intro hh; simp [deserLoop, hcond, hkey] at hh
        · intro e hh; simp [deserLoop, hcond, hkey] at hh
      · rcases hval : takeUntilZero (buf.drop (cur + (key.length + 1))) with _ | value
        · constructor
          · intro hh; simp [deserLoop, hcond, hkey, hval] at hh
          · intro e hh; simp [deserLoop, hcond, hkey, hval] at hh
        · rcases hset : nns_edge_metadata_set al meta key value with ⟨e0, meta2, al3⟩
          have hmeta2 : metaWF meta2 := by
            have := set_preserves_wf al meta key value h
            rwa [hset] at this
          cases e0 with
          | none =>
            have hred : deserLoop buf total (f + 1) al cur meta =
                deserLoop buf total f al3 (cur + (key.length + 1) + (value.length + 1)) meta2 := by
              simp [deserLoop, hcond, hkey, hval, hset]
            rw [hred]
            exact ih buf total al3 (cur + (key.length + 1) + (value.length + 1)) meta2 m2 al2 hmeta2
          | invalidParameter =>
            constructor
            · intro hh; simp [deserLoop, hcond, hkey, hval, hset] at hh
            · intro e hh
              simp [deserLoop, hcond, hkey, hval, hset] at hh
              rw [← hh.2.1]
              exact metaWF_empty
          | outOfMemory =>
            constructor
            · intro hh; simp [deserLoop, hcond, hkey, hval, hset] at hh
            · intro e hh
              simp [deserLoop, hcond, hkey, hval, hset] at hh
              rw [← hh.2.1]
              exact metaWF_empty
    · constructor
      · intro hh
        simp [deserLoop, hcond] at hh
        rw [← hh.1]
        exact h
      · intro e hh
        simp [deserLoop, hcond] at hh

/-- Deserialize only surfaces well-formed stores (on the early-return path
with the untouched input store, this needs the input well-formed). -/
theorem deserialize_preserves_wf (al : List Bool) (meta : Metadata) (buf : List Nat)
    (m2 : Metadata) (al2 : List Bool) (h : metaWF meta) :
    (nns_edge_metadata_deserialize al meta buf = DeserResult.ok m2 al2 → metaWF m2) ∧
    (∀ e, nns_edge_metadata_deserialize al meta buf = DeserResult.err e m2 al2 → metaWF m2) := by
  by_cases h0 : buf.length = 0
  · constructor
    · intro hh; simp [nns_edge_metadata_deserialize, h0] at hh
    · intro e hh
      simp [nns_edge_metadata_deserialize, h0] at hh
      rw [← hh.2.1]
      exact h
  · by_cases h4 : buf.length < 4
    · constructor
      · intro hh; simp [nns_edge_metadata_deserialize, h0, h4] at hh
      · intro e hh; simp [nns_edge_metadata_deserialize, h0, h4] at hh
    · have hred : nns_edge_metadata_deserialize al meta buf =
          deserLoop buf (decode32 buf) (buf.length + 1) al 4 emptyMeta := by
        simp [nns_edge_metadata_deserialize, h0, h4]
      rw [hred]
      exact deserLoop_preserves_wf (buf.length + 1) buf (decode32 buf) al 4 emptyMeta m2 al2
        metaWF_empty

/-- On a well-formed non-empty store, serialize emits the node count as the
4-byte header and one pair per node, so the declared count matches the
number of emitted pairs. -/
theorem serialize_form (m : Metadata) (h : metaWF m) (hne : m.list_len ≠ 0) :
    nns_edge_metadata_serialize [] m =
      (ErrorCode.none, some (encode32 (m.list.length % 4294967296) ++ encodePairs m.list),
        4 + pairsTotal m.list, []) := by
  unfold nns_edge_metadata_serialize
  rw [if_neg hne]
  unfold metaWF at h
  simp [takeAlloc, h]

/-- When the key already exists, set never changes the pair counter. -/
theorem set_replace_keeps_count (al : List Bool) (m : Metadata) (k v : List Nat)
    (hf : (nns_edge_metadata_find m k).isSome) :
    (nns_edge_metadata_set al m k v).2.1.list_len = m.list_len := by
  unfold nns_edge_metadata_set
  cases hk : STR_IS_VALID k with
  | false => simp [hk]
  | true =>
    cases hv : STR_IS_VALID v with
    | false => simp [hk, hv]
    | true =>
      rcases hfs : nns_edge_metadata_find m k with _ | node
      · rw [hfs] at hf; simp at hf
      · rcases hta : takeAlloc al with ⟨ok, al2⟩
        cases ok
        · simp [hk, hv, hfs, hta]
        · simp [hk, hv, hfs, hta]

/-- When the key is fresh and allocations succeed, set links one new node
and increments the pair counter by exactly one. -/
theorem set_insert_increments (m : Metadata) (k v : List Nat) (hk : k ≠ []) (hv : v ≠ [])
    (hf : nns_edge_metadata_find m k = Option.none) :
    (nns_edge_metadata_set [] m k v).2.1.list_len = m.list_len + 1 := by
  rw [set_empty_cases m k v hk hv, hf]

/-- C10: after every metadata operation the stored pair counter equals the
number of nodes in the list — init and free yield the empty well-formed
store, set preserves the invariant on every path (incrementing only when a
node is linked, never on replacement), copy and deserialize only surface
well-formed stores, and serialize writes the node count as the header while
emitting exactly one pair per node. -/
theorem C10_list_len_invariant :
    (∀ m : Metadata, metaWF (nns_edge_metadata_init m).2) ∧
    (∀ (al : List Bool) (m : Metadata) (k v : List Nat), metaWF m →
      metaWF (nns_edge_metadata_set al m k v).2.1) ∧
    (∀ m : Metadata, metaWF (nns_edge_metadata_free m).2) ∧
    (∀ (al : List Bool) (dest src : Metadata), metaWF dest →
      metaWF (nns_edge_metadata_copy al dest src).2.1) ∧
    (∀ (al : List Bool) (meta : Metadata) (buf : List Nat) (m2 : Metadata) (al2 : List Bool),
      metaWF meta →
      (nns_edge_metadata_deserialize al meta buf = DeserResult.ok m2 al2 → metaWF m2) ∧
      (∀ e, nns_edge_metadata_deserialize al meta buf = DeserResult.err e m2 al2 → metaWF m2)) ∧
    (∀ m : Metadata, metaWF m → m.list_len ≠ 0 →
      nns_edge_metadata_serialize [] m =
        (ErrorCode.none, some (encode32 (m.list.length % 4294967296) ++ encodePairs m.list),
          4 + pairsTotal m.list, [])) ∧
    (∀ (al : List Bool) (m : Metadata) (k v : List Nat),
      (nns_edge_metadata_find m k).isSome →
      (nns_edge_metadata_set al m k v).2.1.list_len = m.list_len) ∧
    (∀ (m : Metadata) (k v : List Nat), k ≠ [] → v ≠ [] →
      nns_edge_metadata_find m k = Option.none →
      (nns_edge_metadata_set [] m k v).2.1.list_len = m.list_len + 1) :=
  ⟨fun _ => metaWF_empty, set_preserves_wf, fun _ => metaWF_empty,
    metadata_copy_preserves_wf, fun al meta buf m2 al2 h =>
      deserialize_preserves_wf al meta buf m2 al2 h,
    serialize_form, set_replace_keeps_count, set_insert_increments⟩

/-- C10 witness: a fresh set links one node into the empty store, keeping
counter and node count at 1, and the replacement set keeps the counter. -/
theorem C10_list_len_invariant_witness :
    metaWF emptyMeta ∧
    metaWF (nns_edge_metadata_set [] emptyMeta [107] [118]).2.1 ∧
    (nns_edge_metadata_set [] emptyMeta [107] [118]).2.1.list_len = emptyMeta.list_len + 1 ∧
    (nns_edge_metadata_set [] ⟨1, [⟨[107], [118]⟩]⟩ [107] [119]).2.1.list_len = 1 :=
  ⟨metaWF_empty,
    C10_list_len_invariant.2.1 [] emptyMeta [107] [118] metaWF_empty,
    C10_list_len_invariant.2.2.2.2.2.2.2 emptyMeta [107] [118] (by decide) (by decide)
      (by decide),
    C10_list_len_invariant.2.2.2.2.2.2.1 [] ⟨1, [⟨[107], [118]⟩]⟩ [107] [119] (by decide)⟩

/-- strlen over a NUL-free string followed by its terminator reads exactly
that string. -/
theorem takeUntilZero_append (k rest : List Nat) (h : ∀ b ∈ k, b ≠ 0) :
    takeUntilZero (k ++ 0 :: rest) = some k := by
  induction k with
  | nil => simp [takeUntilZero]
  | cons b k2 ih =>
    have hb : b ≠ 0 := h b (List.mem_cons_self b k2)
    have hrec := ih (fun x hx => h x (List.mem_cons_of_mem b hx))
    simp [takeUntilZero, hb, hrec]

theorem encodePairs_cons (p : MetadataNode) (rest : List MetadataNode) :
    encodePairs (p :: rest) = p.key ++ 0 :: (p.value ++ 0 :: encodePairs rest) := by
  simp [encodePairs, encodePair, List.append_assoc]

theorem length_encodePairs (l : List MetadataNode) :
    (encodePairs l).length = pairsTotal l := by
  induction l with
  | nil => rfl
  | cons n rest ih =>
    simp [encodePairs, encodePair, pairsTotal, ih]
    omega

theorem length_le_pairsTotal (l : List MetadataNode) : l.length ≤ pairsTotal l := by
  induction l with
  | nil => simp [pairsTotal]
  | cons n rest ih =>
    simp only [List.length_cons, pairsTotal]
    omega

theorem decode32_encode32 (n : Nat) (rest : List Nat) :
    decode32 (encode32 n ++ rest) = n % 4294967296 := by
  simp only [decode32, encode32, List.cons_append, List.nil_append, List.getD_cons_zero,
    List.getD_cons_succ]
  omega

theorem drop_len_append {α : Type} (l1 l2 : List α) (n : Nat) (h : l1.length = n) :
    (l1 ++ l2).drop n = l2 := by
  subst h
  exact List.drop_left l1 l2

theorem strcaseEq_false_symm {a b : List Nat} (h : strcaseEq a b = false) :
    strcaseEq b a = false := by
  cases hc : strcaseEq b a
  · rfl
  · exact absurd (strcaseEq_symm hc) (by simp [h])

/-- With the all-succeed oracle, a fold of fresh-key sets prepends the nodes
in order and counts them. -/
theorem setFold_inserts :
    ∀ (ps : List MetadataNode) (m : Metadata),
    (∀ n ∈ ps, n.key ≠ [] ∧ n.value ≠ []) →
    (∀ n ∈ ps, nns_edge_metadata_find m n.key = Option.none) →
    List.Pairwise (fun a b => strcaseEq a.key b.key = false) ps →
    setFold m ps = ⟨m.list_len + ps.length, ps.reverse ++ m.list⟩ := by
  intro ps
  induction ps with
  | nil =>
    intro m _ _ _
    cases m
    simp [setFold]
  | cons p rest ih =>
    intro m hval hfresh hpw
    have hp := hval p (List.mem_cons_self p rest)
    have hfp := hfresh p (List.mem_cons_self p rest)
    have hstep : setFold m (p :: rest) = setFold ⟨m.list_len + 1, p :: m.list⟩ rest := by
      show setFold (nns_edge_metadata_set [] m p.key p.value).2.1 rest = _
      rw [set_empty_cases m p.key p.value hp.1 hp.2, hfp]
    rw [hstep]
    have hpwrest : List.Pairwise (fun a b => strcaseEq a.key b.key = false) rest :=
      (List.pairwise_cons.mp hpw).2
    have hhead : ∀ n ∈ rest, strcaseEq p.key n.key = false :=
      (List.pairwise_cons.mp hpw).1
    have hfresh2 : ∀ n ∈ rest, nns_edge_metadata_find ⟨m.list_len + 1, p :: m.list⟩ n.key =
        Option.none := by
      intro n hn
      have hnk : n.key ≠ [] := (hval n (List.mem_cons_of_mem p hn)).1
      have hnv : STR_IS_VALID n.key = true := by simp [STR_IS_VALID, hnk]
      have hnp : strcaseEq n.key p.key = false := strcaseEq_false_symm (hhead n hn)
      have hfn := hfresh n (List.mem_cons_of_mem p hn)
      simp only [nns_edge_metadata_find, hnv, if_true] at hfn ⊢
      simp [List.find?_cons, hnp, hfn]
    have := ih ⟨m.list_len + 1, p :: m.list⟩
      (fun n hn => hval n (List.mem_cons_of_mem p hn)) hfresh2 hpwrest
    rw [this]
    simp [List.reverse_cons, List.append_assoc]
    omega

/-- The decode loop, fed the exact pair encoding with enough fuel, consumes
one pair per iteration through set and stops exactly at the end of the
buffer, provided the declared count is at most the final pair counter. -/
theorem deserLoop_encode :
    ∀ (ps : List MetadataNode) (fuel cur : Nat) (m : Metadata) (buf : List Nat) (total : Nat),
    buf.drop cur = encodePairs ps →
    buf.length = cur + pairsTotal ps →
    (∀ n ∈ ps, n.key ≠ [] ∧ n.value ≠ [] ∧
      (∀ b ∈ n.key, b ≠ 0) ∧ (∀ b ∈ n.value, b ≠ 0)) →
    ps.length + 1 ≤ fuel →
    total ≤ (setFold m ps).list_len →
    deserLoop buf total fuel [] cur m = DeserResult.ok (setFold m ps) [] := by
  intro ps
  induction ps with
  | nil =>
    intro fuel cur m buf total hdrop hblen _ hfuel htot
    cases fuel with
    | zero => omega
    | succ f =>
      have hcur : cur = buf.length := by
        simp only [pairsTotal, Nat.add_zero] at hblen
        omega
      have hnotlt : ¬ (cur < buf.length ∨ m.list_len < total) := by
        push_neg
        refine ⟨by omega, ?_⟩
        simpa [setFold] using htot
      simp [deserLoop, hnotlt, setFold]
  | cons p rest ih =>
    intro fuel cur m buf total hdrop hblen hval hfuel htot
    cases fuel with
    | zero => simp at hfuel
    | succ f =>
      have hp := hval p (List.mem_cons_self p rest)
      have hcond : cur < buf.length ∨ m.list_len < total := by
        left
        have hpt : pairsTotal (p :: rest) ≠ 0 := by simp only [pairsTotal]; omega
        omega
      have hdropc : buf.drop cur = p.key ++ 0 :: (p.value ++ 0 :: encodePairs rest) := by
        rw [hdrop, encodePairs_cons]
      have hk1 : takeUntilZero (buf.drop cur) = some p.key := by
        rw [hdropc]
        exact takeUntilZero_append p.key _ hp.2.2.1
      have hdrop2 : buf.drop (cur + (p.key.length + 1)) = p.value ++ 0 :: encodePairs rest := by
        rw [← List.drop_drop, hdropc,
          show p.key ++ 0 :: (p.value ++ 0 :: encodePairs rest) =
            (p.key ++ [0]) ++ (p.value ++ 0 :: encodePairs rest) by simp]
        exact drop_len_append _ _ _ (by simp)
      have hv1 : takeUntilZero (buf.drop (cur + (p.key.length + 1))) = some p.value := by
        rw [hdrop2]
        exact takeUntilZero_append p.value _ hp.2.2.2
      obtain ⟨m2, hm2⟩ : ∃ m2, (nns_edge_metadata_set [] m p.key p.value).2.1 = m2 :=
        ⟨_, rfl⟩
      have hset : nns_edge_metadata_set [] m p.key p.value =
          (ErrorCode.none, (nns_edge_metadata_set [] m p.key p.value).2.1, []) := by
        rw [set_empty_cases m p.key p.value hp.1 hp.2.1]
        cases nns_edge_metadata_find m p.key <;> rfl
      rw [hm2] at hset
      have hred : deserLoop buf total (f + 1) [] cur m =
          deserLoop buf total f [] (cur + (p.key.length + 1) + (p.value.length + 1)) m2 := by
        simp [deserLoop, hcond, hk1, hv1, hset]
      have hdrop3 : buf.drop (cur + (p.key.length + 1) + (p.value.length + 1)) =
          encodePairs rest := by
        rw [← List.drop_drop, hdrop2,
          show p.value ++ 0 :: encodePairs rest = (p.value ++ [0]) ++ encodePairs rest by simp]
        exact drop_len_append _ _ _ (by simp)
      have hsetfold : setFold m (p :: rest) = setFold m2 rest := by
        show setFold (nns_edge_metadata_set [] m p.key p.value).2.1 rest = setFold m2 rest
        rw [hm2]
      rw [hred, hsetfold]
      exact ih f (cur + (p.key.length + 1) + (p.value.length + 1)) m2 buf total hdrop3
        (by
          simp only [pairsTotal] at hblen
          omega)
        (fun n hn => hval n (List.mem_cons_of_mem p hn))
        (by simp only [List.length_cons] at hfuel; omega)
        (by rw [← hsetfold]; exact htot)

/-- When exactly one node matches the searched key, the linear scan finds
that node wherever it sits. -/
theorem find?_of_unique (key : List Nat) :
    ∀ (l : List MetadataNode) (n : MetadataNode), n ∈ l →
    strcaseEq key n.key = true →
    (∀ x ∈ l, strcaseEq key x.key = true → x = n) →
    l.find? (fun x => strcaseEq key x.key) = some n := by
  intro l
  induction l with
  | nil => intro n hn _ _; simp at hn
  | cons x rest ih =>
    intro n hn hkey huniq
    by_cases hx : strcaseEq key x.key = true
    · have hxn : x = n := huniq x (List.mem_cons_self x rest) hx
      rw [hxn] at hx ⊢
      exact List.find?_cons_of_pos rest hx
    · have hx2 : strcaseEq key x.key = false := by
        cases hb : strcaseEq key x.key
        · rfl
        · exact absurd hb hx
      have hstep : List.find? (fun y => strcaseEq key y.key) (x :: rest) =
          List.find? (fun y => strcaseEq key y.key) rest :=
        List.find?_cons_of_neg rest hx
      rw [hstep]
      have hnr : n ∈ rest := by
        rcases List.mem_cons.mp hn with h | h
        · exact absurd (h ▸ hkey) (by simp [hx2])
        · exact h
      exact ih n hnr hkey (fun y hy hp => huniq y (List.mem_cons_of_mem x hy) hp)

/-- C2: serializing a well-formed store of pairwise case-insensitively
distinct, non-empty, NUL-free pairs and deserializing the blob into a fresh
store succeeds, and get returns the original value for every original key. -/
theorem C2_serialize_deserialize_roundtrip :
    ∀ m : Metadata, metaWF m → m.list ≠ [] →
    (∀ n ∈ m.list, n.key ≠ [] ∧ n.value ≠ [] ∧
      (∀ b ∈ n.key, b ≠ 0) ∧ (∀ b ∈ n.value, b ≠ 0)) →
    List.Pairwise (fun a b => strcaseEq a.key b.key = false) m.list →
    ∃ blob m2,
      nns_edge_metadata_serialize [] m =
        (ErrorCode.none, some blob, 4 + pairsTotal m.list, []) ∧
      nns_edge_metadata_deserialize [] emptyMeta blob = DeserResult.ok m2 [] ∧
      ∀ n ∈ m.list, nns_edge_metadata_get [] m2 n.key = (ErrorCode.none, some n.value, []) := by
  intro m hwf hne hval hpw
  have hlen0 : m.list_len ≠ 0 := by
    unfold metaWF at hwf
    rw [hwf]
    simpa using hne
  have hser := serialize_form m hwf hlen0
  refine ⟨encode32 (m.list.length % 4294967296) ++ encodePairs m.list,
    ⟨m.list.length, m.list.reverse⟩, hser, ?_, ?_⟩
  · have hbl : (encode32 (m.list.length % 4294967296) ++ encodePairs m.list).length =
        4 + pairsTotal m.list := by
      simp [encode32, length_encodePairs]
      omega
    have hfold : setFold emptyMeta m.list = ⟨m.list.length, m.list.reverse⟩ := by
      have := setFold_inserts m.list emptyMeta
        (fun n hn => ⟨(hval n hn).1, (hval n hn).2.1⟩)
        (fun n hn => by simp [nns_edge_metadata_find, emptyMeta])
        hpw
      simpa [emptyMeta] using this
    have hloop := deserLoop_encode m.list
      ((encode32 (m.list.length % 4294967296) ++ encodePairs m.list).length + 1) 4
      emptyMeta (encode32 (m.list.length % 4294967296) ++ encodePairs m.list)
      (m.list.length % 4294967296)
      (drop_len_append _ _ _ (by simp [encode32]))
      (by rw [hbl])
      hval
      (by
        rw [hbl]
        have := length_le_pairsTotal m.list
        omega)
      (by
        rw [hfold]
        exact Nat.mod_le _ _)
    have hlen4 : ¬ (encode32 (m.list.length % 4294967296) ++ encodePairs m.list).length = 0 := by
      simp [encode32]
    have hlt4 : ¬ (encode32 (m.list.length % 4294967296) ++ encodePairs m.list).length < 4 := by
      simp [encode32]
    have hmm : m.list.length % 4294967296 % 4294967296 = m.list.length % 4294967296 := by
      omega
    rw [nns_edge_metadata_deserialize, if_neg hlen4, if_neg hlt4, decode32_encode32, hmm,
      hloop, hfold]
  · intro n hn
    have hnk : n.key ≠ [] := (hval n hn).1
    have hfind : nns_edge_metadata_find ⟨m.list.length, m.list.reverse⟩ n.key = some n := by
      have hvalid : STR_IS_VALID n.key = true := by simp [STR_IS_VALID, hnk]
      have huniq : ∀ x ∈ m.list.reverse, strcaseEq n.key x.key = true → x = n := by
        intro x hx hp
        by_contra hxn
        have hx2 : x ∈ m.list := List.mem_reverse.mp hx
        have hrel := hpw.forall (fun a b h => strcaseEq_false_symm h) hn hx2
          (fun hcontra => hxn hcontra.symm)
        rw [hp] at hrel
        simp at hrel
      simp only [nns_edge_metadata_find, hvalid, if_true]
      exact find?_of_unique n.key m.list.reverse n (List.mem_reverse.mpr hn)
        (strcaseEq_refl n.key) huniq
    simp [nns_edge_metadata_get, hfind, takeAlloc]

/-- C2 witness: the two-pair store ("A","x"), ("b","y") round-trips and get
recovers both values. -/
theorem C2_serialize_deserialize_roundtrip_witness :
    ∃ blob m2,
      nns_edge_metadata_serialize [] ⟨2, [⟨[65], [120]⟩, ⟨[98], [121]⟩]⟩ =
        (ErrorCode.none, some blob,
          4 + pairsTotal [⟨[65], [120]⟩, ⟨[98], [121]⟩], []) ∧
      nns_edge_metadata_deserialize [] emptyMeta blob = DeserResult.ok m2 [] ∧
      ∀ n ∈ ([⟨[65], [120]⟩, ⟨[98], [121]⟩] : List MetadataNode),
        nns_edge_metadata_get [] m2 n.key = (ErrorCode.none, some n.value, []) :=
  C2_serialize_deserialize_roundtrip ⟨2, [⟨[65], [120]⟩, ⟨[98], [121]⟩]⟩
    rfl (by decide) (by decide) (by decide)
